import Mathlib

/-!
Verification of the sparseld/graphld repository: a shallow embedding of the
sparse precision-matrix operator, the block-parallel BLUP driver, and the
snplist-merging I/O routines, together with theorems settling the specified
properties.

Matrices are embedded as `Matrix (Fin n) (Fin n) K` over an exact field
(`ℚ` where the claims are about exact linear algebra, `ℝ` where logarithms
appear).  Masked views, solves and log-determinants follow the spec text for
`precision.py` (that file is not in the source tree; only its callers and
tests are), while the block partitioning, buffer writes and snplist merging
are translated directly from `graphld/blup.py` and `sparseld/io.py`.
-/

open Matrix BigOperators

/-! ## Linear-algebra core: masked views of a precision matrix -/

/-- Matrix inverse over a field, written explicitly as `det⁻¹ • adjugate`
so that it is computable over `ℚ`. -/
def matInv {n : ℕ} {K : Type} [Field K] (A : Matrix (Fin n) (Fin n) K) :
    Matrix (Fin n) (Fin n) K :=
  A.det⁻¹ • A.adjugate

theorem matInv_eq_inv {n : ℕ} {K : Type} [Field K] (A : Matrix (Fin n) (Fin n) K) :
    matInv A = A⁻¹ := by
  rw [Matrix.inv_def, Ring.inverse_eq_inv']
  rfl

/-- Embed an active-space vector into the full row space, zeros elsewhere. -/
def embedVec {n m : ℕ} {K : Type} [Field K] (mask : Fin m → Fin n) (v : Fin m → K) :
    Fin n → K :=
  fun i => ∑ j : Fin m, if mask j = i then v j else 0

/-- A sparse precision operator: an `n × n` matrix plus an
`active_index_mask` mapping the logical active row space (size `m`) into the
full row space. -/
structure PrecisionOp (K : Type) (n m : ℕ) where
  matrix : Matrix (Fin n) (Fin n) K
  mask : Fin m → Fin n

/-- The active dimension `M` of the operator. -/
def PrecisionOp.active_dimension {K : Type} {n m : ℕ} (_ : PrecisionOp K n m) : ℕ := m

/-- Modelled from the spec (`precision.py` is not in the source tree):
`solve` "solve[s] against the full factorization restricted to the active
right-hand-side embedded with zeros elsewhere, then read[s] off the active
rows" — i.e. apply the full-matrix inverse to the zero-embedded
right-hand side and select the active rows. -/
def PrecisionOp.solve {K : Type} [Field K] {n m : ℕ} (op : PrecisionOp K n m)
    (v : Fin m → K) : Fin m → K :=
  fun j => (matInv op.matrix).mulVec (embedVec op.mask v) (op.mask j)

/-- The Schur-complement-corrected solve: the active block of the full
inverse applied to the right-hand side. -/
def schurSolve {n m : ℕ} {K : Type} [Field K] (A : Matrix (Fin n) (Fin n) K)
    (mask : Fin m → Fin n) (v : Fin m → K) : Fin m → K :=
  ((matInv A).submatrix mask mask).mulVec v

/-- The naive (incorrect) solve: drop the inactive rows and columns and
invert the smaller system directly. -/
def naiveSolve {n m : ℕ} {K : Type} [Field K] (A : Matrix (Fin n) (Fin n) K)
    (mask : Fin m → Fin n) (v : Fin m → K) : Fin m → K :=
  (matInv (A.submatrix mask mask)).mulVec v

theorem solve_eq_schurSolve {n m : ℕ} {K : Type} [Field K]
    (op : PrecisionOp K n m) (v : Fin m → K) :
    op.solve v = schurSolve op.matrix op.mask v := by
  funext j
  simp only [PrecisionOp.solve, schurSolve, Matrix.mulVec, Matrix.dotProduct, embedVec,
    Matrix.submatrix_apply, Finset.mul_sum]
  rw [Finset.sum_comm]
  refine Finset.sum_congr rfl fun k _ => ?_
  rw [Finset.sum_eq_single (op.mask k)]
  · simp
  · intro i _ hne
    simp [Ne.symm hne]
  · simp

/-- C1: for an operator whose active mask is a strict subset of the full row
space, `solve` equals the Schur-complement-corrected solve (active block of
the full inverse applied to the right-hand side), and there is a matrix with
off-diagonal coupling on an inactive row on which this differs from dropping
the inactive rows and solving the smaller system. -/
theorem restricted_solve_schur_not_naive {K : Type} [Field K] {n m : ℕ}
    (op : PrecisionOp K n m) (hinj : Function.Injective op.mask)
    (hstrict : ¬ Function.Surjective op.mask) (v : Fin m → K) :
    op.solve v = schurSolve op.matrix op.mask v ∧
    ∃ (A : Matrix (Fin 2) (Fin 2) ℚ) (mask : Fin 1 → Fin 2) (w : Fin 1 → ℚ)
      (r c : Fin 2), (∀ j, mask j ≠ r) ∧ r ≠ c ∧ A r c ≠ 0 ∧
      PrecisionOp.solve ⟨A, mask⟩ w ≠ naiveSolve A mask w := by
  refine ⟨solve_eq_schurSolve op v, !![2, -1; -1, 2], ![0], ![1], 1, 0, ?_, ?_, ?_, ?_⟩
  · decide
  · decide
  · norm_num
  · intro h
    have h0 := congrFun h 0
    have hL : PrecisionOp.solve (⟨!![2, -1; -1, 2], ![0]⟩ : PrecisionOp ℚ 2 1) ![1] 0
        = 2 / 3 := by
      simp [PrecisionOp.solve, matInv, embedVec, Matrix.mulVec, Matrix.dotProduct,
        Matrix.det_fin_two, Matrix.adjugate_fin_two, Fin.sum_univ_two]
      norm_num
    have hR : naiveSolve (!![2, -1; -1, 2] : Matrix (Fin 2) (Fin 2) ℚ) ![0] ![1] 0
        = 1 / 2 := by
      simp [naiveSolve, matInv, Matrix.mulVec, Matrix.dotProduct,
        Matrix.det_fin_one, Matrix.adjugate_fin_one]
    rw [hL, hR] at h0
    norm_num at h0

theorem restricted_solve_schur_not_naive_witness :
    PrecisionOp.solve (⟨!![2, -1; -1, 2], ![0]⟩ : PrecisionOp ℚ 2 1) ![1]
        = schurSolve !![2, -1; -1, 2] ![0] ![1] ∧
    ∃ (A : Matrix (Fin 2) (Fin 2) ℚ) (mask : Fin 1 → Fin 2) (w : Fin 1 → ℚ)
      (r c : Fin 2), (∀ j, mask j ≠ r) ∧ r ≠ c ∧ A r c ≠ 0 ∧
      PrecisionOp.solve ⟨A, mask⟩ w ≠ naiveSolve A mask w :=
  restricted_solve_schur_not_naive ⟨!![2, -1; -1, 2], ![0]⟩
    (by decide) (by decide) ![1]

/-! ## Likelihood kernel (modelled from the spec: `likelihood.py` and
`precision.py` are not in the source tree; `tests/test_likelihood.py` is) -/

/-- The active block of the covariance (the full inverse restricted to the
active rows and columns). -/
def PrecisionOp.covSub {K : Type} [Field K] {n m : ℕ} (op : PrecisionOp K n m) :
    Matrix (Fin m) (Fin m) K :=
  (matInv op.matrix).submatrix op.mask op.mask

/-- The effective active-space matrix: the inverse of the active covariance
block, i.e. the Schur complement of the inactive block in the full matrix. -/
def PrecisionOp.effectiveActive {K : Type} [Field K] {n m : ℕ}
    (op : PrecisionOp K n m) : Matrix (Fin m) (Fin m) K :=
  matInv op.covSub

/-- Modelled from the spec: `log_determinant` "returns the log-determinant
of the effective active-space matrix". -/
noncomputable def PrecisionOp.log_determinant {n m : ℕ} (op : PrecisionOp ℝ n m) : ℝ :=
  Real.log op.effectiveActive.det

/-- Modelled from the spec: `gaussian_likelihood (pz, operator)` returns
`-½ (pzᵀ · operator.solve(pz) + operator.log_determinant() + M·log(2π))`. -/
noncomputable def gaussian_likelihood {n m : ℕ} (pz : Fin m → ℝ)
    (op : PrecisionOp ℝ n m) : ℝ :=
  -(1 / 2) * (pz ⬝ᵥ op.solve pz + op.log_determinant
    + (op.active_dimension : ℝ) * Real.log (2 * Real.pi))

/-- The reference multivariate-normal log-density of `x` under covariance
`S`: `-½ (xᵀ S⁻¹ x + log det S + m log 2π)`. -/
noncomputable def mvnLogDensity {m : ℕ} (S : Matrix (Fin m) (Fin m) ℝ)
    (x : Fin m → ℝ) : ℝ :=
  -(1 / 2) * (x ⬝ᵥ (matInv S).mulVec x + Real.log S.det
    + (m : ℝ) * Real.log (2 * Real.pi))

/-- C3: for `pz = effectiveActive ⬝ z`, `gaussian_likelihood` returns the
stated formula and equals the multivariate-normal log-density of `pz` under
covariance equal to the effective active matrix. -/
theorem gaussian_likelihood_eq_mvn {n m : ℕ} (op : PrecisionOp ℝ n m)
    (z : Fin m → ℝ) (hdet : IsUnit op.covSub.det) :
    gaussian_likelihood (op.effectiveActive.mulVec z) op =
      -(1 / 2) * ((op.effectiveActive.mulVec z) ⬝ᵥ op.solve (op.effectiveActive.mulVec z)
        + op.log_determinant + (op.active_dimension : ℝ) * Real.log (2 * Real.pi)) ∧
    gaussian_likelihood (op.effectiveActive.mulVec z) op =
      mvnLogDensity op.effectiveActive (op.effectiveActive.mulVec z) := by
  constructor
  · rfl
  · have hsolve : op.solve (op.effectiveActive.mulVec z)
        = op.covSub.mulVec (op.effectiveActive.mulVec z) := by
      rw [solve_eq_schurSolve]
      rfl
    have hinvinv : matInv op.effectiveActive = op.covSub := by
      rw [PrecisionOp.effectiveActive, matInv_eq_inv, matInv_eq_inv,
        Matrix.nonsing_inv_nonsing_inv _ hdet]
    unfold gaussian_likelihood mvnLogDensity PrecisionOp.log_determinant
    rw [hsolve, hinvinv]
    rfl

theorem gaussian_likelihood_eq_mvn_witness :
    IsUnit (PrecisionOp.covSub (⟨!![2], id⟩ : PrecisionOp ℝ 1 1)).det ∧
    gaussian_likelihood
        ((PrecisionOp.effectiveActive (⟨!![2], id⟩ : PrecisionOp ℝ 1 1)).mulVec ![1])
        (⟨!![2], id⟩ : PrecisionOp ℝ 1 1) =
      mvnLogDensity (PrecisionOp.effectiveActive (⟨!![2], id⟩ : PrecisionOp ℝ 1 1))
        ((PrecisionOp.effectiveActive (⟨!![2], id⟩ : PrecisionOp ℝ 1 1)).mulVec ![1]) := by
  have hdet : IsUnit (PrecisionOp.covSub (⟨!![2], id⟩ : PrecisionOp ℝ 1 1)).det := by
    have : (PrecisionOp.covSub (⟨!![2], id⟩ : PrecisionOp ℝ 1 1)).det = 1 / 2 := by
      simp [PrecisionOp.covSub, matInv, Matrix.det_fin_one, Matrix.adjugate_fin_one,
        Matrix.submatrix_apply]
      try norm_num
    rw [this]
    exact isUnit_iff_ne_zero.mpr (by norm_num)
  exact ⟨hdet, (gaussian_likelihood_eq_mvn ⟨!![2], id⟩ ![1] hdet).2⟩

/-- Shape error raised by the likelihood kernel (models Python `ValueError`). -/
inductive ShapeError : Type where
  | mismatch : ShapeError

/-- Modelled from the spec: `gaussian_likelihood` has precondition
`len(pz) == operator.active_dimension; else raises a shape error`, raised
synchronously.  The fallible entry point takes a dynamically sized vector. -/
noncomputable def gaussian_likelihood_checked {n m : ℕ} (pz : List ℝ)
    (op : PrecisionOp ℝ n m) : Except ShapeError ℝ :=
  if h : pz.length = op.active_dimension then
    Except.ok (gaussian_likelihood (fun i => pz.get (Fin.cast h.symm i)) op)
  else
    Except.error ShapeError.mismatch

/-- C7: `gaussian_likelihood_checked` raises a shape error exactly when the
vector length differs from the operator's active dimension, and returns a
value for every vector of the correct length. -/
theorem gaussian_likelihood_checked_shape {n m : ℕ} (pz : List ℝ)
    (op : PrecisionOp ℝ n m) :
    (gaussian_likelihood_checked pz op = Except.error ShapeError.mismatch ↔
      pz.length ≠ op.active_dimension) ∧
    (pz.length = op.active_dimension → ∃ r, gaussian_likelihood_checked pz op = Except.ok r) := by
  constructor
  · constructor
    · intro h hlen
      rw [gaussian_likelihood_checked, dif_pos hlen] at h
      exact Except.noConfusion h
    · intro hlen
      rw [gaussian_likelihood_checked, dif_neg hlen]
  · intro hlen
    exact ⟨_, by rw [gaussian_likelihood_checked, dif_pos hlen]⟩

/-! ## Block partitioning and the shared output buffer (`graphld/blup.py`) -/

/-- `np.cumsum` on a list of block lengths. -/
def cumsum (ls : List ℕ) : List ℕ :=
  (List.range ls.length).map fun i => (ls.take (i + 1)).sum

/-- `BLUP.prepare_block_data`: zip the partitioned blocks with the offsets
`[0] + list(cumsum(lengths)[:-1])`. -/
def prepare_block_data {α : Type} (blocks : List (List α)) : List (List α × ℕ) :=
  blocks.zip (0 :: (cumsum (blocks.map List.length)).dropLast)

/-- Slice assignment `buf[off : off + len(vals)] = vals` on a shared numeric
buffer, embedded as a function on indices. -/
def writeSlice (buf : ℕ → ℚ) (off : ℕ) (vals : List ℚ) : ℕ → ℚ :=
  fun i => if off ≤ i ∧ i < off + vals.length then vals.getD (i - off) 0 else buf i

/-- The value the vectorized write `beta_reshaped[sumstat_indices] = beta`
leaves at local position `k`: the last assignment to `k` wins, positions
never assigned stay at zero. -/
def assignAt (assign : List (ℕ × ℚ)) (k : ℕ) : ℚ :=
  match (assign.filter fun p => p.1 == k).getLast? with
  | some p => p.2
  | none => 0

/-- `beta_reshaped`: a zero vector of length `num` with the merged entries
filled in. -/
def blockBeta (num : ℕ) (assign : List (ℕ × ℚ)) : List ℚ :=
  (List.range num).map (assignAt assign)

/-- The buffer effect of `BLUP.process_block`: write `beta_reshaped` into
`shared_data['beta']` at `slice(variant_offset, variant_offset + num_variants)`. -/
def process_block (buf : ℕ → ℚ) (off num : ℕ) (assign : List (ℕ × ℚ)) : ℕ → ℚ :=
  writeSlice buf off (blockBeta num assign)

theorem cumsum_length (ls : List ℕ) : (cumsum ls).length = ls.length := by
  simp [cumsum]

theorem offsets_getElem (ls : List ℕ) (b : ℕ) (hb : b < ls.length) :
    ∀ h : b < (0 :: (cumsum ls).dropLast).length,
      (0 :: (cumsum ls).dropLast).get ⟨b, h⟩ = (ls.take b).sum := by
  intro h
  match b with
  | 0 => rfl
  | Nat.succ c =>
    have hc : c < (cumsum ls).dropLast.length := by
      simp only [List.length_cons, List.length_dropLast, cumsum_length] at h ⊢
      omega
    have : (0 :: (cumsum ls).dropLast).get ⟨c + 1, h⟩ = (cumsum ls).dropLast.get ⟨c, hc⟩ :=
      rfl
    rw [this]
    have hc2 : c < (cumsum ls).length := by
      simp only [List.length_dropLast] at hc
      omega
    simp only [List.get_eq_getElem, List.getElem_dropLast, cumsum,
      List.getElem_map, List.getElem_range]

theorem prepare_block_data_length {α : Type} (blocks : List (List α)) :
    (prepare_block_data blocks).length = blocks.length := by
  simp only [prepare_block_data, List.length_zip, List.length_cons,
    List.length_dropLast, cumsum_length, List.length_map]
  omega

theorem prepare_block_data_getElem {α : Type} (blocks : List (List α)) (b : ℕ)
    (hb : b < blocks.length) :
    ∀ h : b < (prepare_block_data blocks).length,
      (prepare_block_data blocks).get ⟨b, h⟩ =
        (blocks.get ⟨b, hb⟩, ((blocks.map List.length).take b).sum) := by
  intro h
  have h2 : b < (blocks.zip (0 :: (cumsum (blocks.map List.length)).dropLast)).length := h
  simp only [prepare_block_data, List.get_eq_getElem, List.getElem_zip]
  refine Prod.ext rfl ?_
  have hb2 : b < (blocks.map List.length).length := by
    simpa using hb
  have := offsets_getElem (blocks.map List.length) b hb2
    (by
      simp only [List.length_cons, List.length_dropLast, cumsum_length]
      simp only [List.length_zip, List.length_cons, List.length_dropLast,
        cumsum_length, List.length_map] at h2
      omega)
  simpa using this

/-- Recursive view of the partition: pair each block with a running offset. -/
def zipOffsets {α : Type} (acc : ℕ) : List (List α) → List (List α × ℕ)
  | [] => []
  | blk :: rest => (blk, acc) :: zipOffsets (acc + blk.length) rest

theorem zipOffsets_length {α : Type} (acc : ℕ) (blocks : List (List α)) :
    (zipOffsets acc blocks).length = blocks.length := by
  induction blocks generalizing acc with
  | nil => rfl
  | cons blk rest ih => simp [zipOffsets, ih]

theorem zipOffsets_getElem {α : Type} (blocks : List (List α)) :
    ∀ (acc b : ℕ) (hb : b < blocks.length) (h : b < (zipOffsets acc blocks).length),
      (zipOffsets acc blocks).get ⟨b, h⟩ =
        (blocks.get ⟨b, hb⟩, acc + ((blocks.map List.length).take b).sum) := by
  induction blocks with
  | nil => intro _ b hb; simp at hb
  | cons blk rest ih =>
    intro acc b hb h
    match b with
    | 0 => simp [zipOffsets]
    | Nat.succ c =>
      have hc : c < rest.length := by simpa using hb
      have hc2 : c < (zipOffsets (acc + blk.length) rest).length := by
        rw [zipOffsets_length]; exact hc
      have : (zipOffsets acc (blk :: rest)).get ⟨c + 1, h⟩ =
          (zipOffsets (acc + blk.length) rest).get ⟨c, hc2⟩ := rfl
      rw [this, ih (acc + blk.length) c hc hc2]
      simp only [List.get_eq_getElem, List.getElem_cons_succ, List.map_cons,
        List.take_succ_cons, List.sum_cons]
      refine Prod.ext rfl ?_
      simp only
      omega

theorem prepare_block_data_eq_zipOffsets {α : Type} (blocks : List (List α)) :
    prepare_block_data blocks = zipOffsets 0 blocks := by
  apply List.ext_get
  · rw [prepare_block_data_length, zipOffsets_length]
  · intro b h1 h2
    have hb : b < blocks.length := by rwa [prepare_block_data_length] at h1
    rw [prepare_block_data_getElem blocks b hb h1, zipOffsets_getElem blocks 0 b hb h2]
    simp

/-- The serial scheduler of the worker framework: fold `process_block` over
the task list, where each task's merged assignment is computed from the
block's summary statistics by the per-block callback `f`. -/
def run_blocks {α : Type} (f : List α → List (ℕ × ℚ)) (tasks : List (List α × ℕ))
    (buf : ℕ → ℚ) : ℕ → ℚ :=
  tasks.foldl (fun bu t => process_block bu t.2 t.1.length (f t.1)) buf

/-- `BLUP.create_shared_memory`: the allocated length is the total number of
variants over all partitioned blocks. -/
def create_shared_memory_len {α : Type} (block_data : List (List α × ℕ)) : ℕ :=
  (block_data.map fun p => p.1.length).sum

/-- The serial run path: zero buffer, then process every block in order. -/
def run_serial_beta {α : Type} (f : List α → List (ℕ × ℚ)) (blocks : List (List α)) :
    ℕ → ℚ :=
  run_blocks f (prepare_block_data blocks) (fun _ => 0)

theorem process_block_outside (buf : ℕ → ℚ) (off num : ℕ) (assign : List (ℕ × ℚ))
    (i : ℕ) (hout : i < off ∨ off + num ≤ i) :
    process_block buf off num assign i = buf i := by
  have hlen : (blockBeta num assign).length = num := by
    simp [blockBeta]
  rw [process_block, writeSlice, hlen, if_neg]
  omega

theorem sum_take_len_le {α : Type} (blocks : List (List α)) (x y : ℕ)
    (hx : x < blocks.length) (hxy : x < y) :
    ((blocks.map List.length).take x).sum + (blocks.get ⟨x, hx⟩).length ≤
      ((blocks.map List.length).take y).sum := by
  have hx2 : x < (blocks.map List.length).length := by simpa using hx
  have hstep : ((blocks.map List.length).take (x + 1)).sum =
      ((blocks.map List.length).take x).sum + (blocks.get ⟨x, hx⟩).length := by
    rw [List.sum_take_succ _ _ hx2]
    simp
  have hmono : ((blocks.map List.length).take (x + 1)).sum ≤
      ((blocks.map List.length).take y).sum := by
    have hsplit := List.take_append_drop (x + 1) ((blocks.map List.length).take y)
    rw [List.take_take, Nat.min_eq_left (by omega : x + 1 ≤ y)] at hsplit
    have : (((blocks.map List.length).take (x + 1))
          ++ ((blocks.map List.length).take y).drop (x + 1)).sum =
        ((blocks.map List.length).take y).sum := by rw [hsplit]
    simp only [List.sum_append] at this
    omega
  omega

/-- C2: `prepare_block_data` assigns block `b` the offset equal to the sum of
the lengths of the preceding blocks; the half-open ranges of two distinct
blocks are disjoint (zero-length blocks included); and `process_block` leaves
every buffer position outside its own range unchanged. -/
theorem block_ranges_disjoint {α : Type} (blocks : List (List α)) (b b' : ℕ)
    (hb : b < blocks.length) (hb' : b' < blocks.length) (hne : b ≠ b')
    (hpb : b < (prepare_block_data blocks).length)
    (hpb' : b' < (prepare_block_data blocks).length)
    (buf : ℕ → ℚ) (off num : ℕ) (assign : List (ℕ × ℚ)) (i j : ℕ)
    (hout : i < off ∨ off + num ≤ i) :
    (prepare_block_data blocks).get ⟨b, hpb⟩ =
      (blocks.get ⟨b, hb⟩, ((blocks.map List.length).take b).sum) ∧
    ¬ ((((blocks.map List.length).take b).sum ≤ j ∧
          j < ((blocks.map List.length).take b).sum + (blocks.get ⟨b, hb⟩).length) ∧
        (((blocks.map List.length).take b').sum ≤ j ∧
          j < ((blocks.map List.length).take b').sum + (blocks.get ⟨b', hb'⟩).length)) ∧
    process_block buf off num assign i = buf i := by
  refine ⟨prepare_block_data_getElem blocks b hb hpb, ?_, process_block_outside buf off num assign i hout⟩
  rcases Nat.lt_or_ge b b' with hlt | hge
  · have := sum_take_len_le blocks b b' hb hlt
    omega
  · have hlt : b' < b := by omega
    have := sum_take_len_le blocks b' b hb' hlt
    omega

theorem block_ranges_disjoint_witness :
    (prepare_block_data [[(1 : ℚ)], [2, 3]]).get
        ⟨0, by rw [prepare_block_data_length]; decide⟩ =
      ([[(1 : ℚ)], [2, 3]].get ⟨0, by decide⟩,
        (([[(1 : ℚ)], [2, 3]].map List.length).take 0).sum) ∧
    ¬ (((([[(1 : ℚ)], [2, 3]].map List.length).take 0).sum ≤ 1 ∧
          1 < (([[(1 : ℚ)], [2, 3]].map List.length).take 0).sum +
            ([[(1 : ℚ)], [2, 3]].get ⟨0, by decide⟩).length) ∧
        ((([[(1 : ℚ)], [2, 3]].map List.length).take 1).sum ≤ 1 ∧
          1 < (([[(1 : ℚ)], [2, 3]].map List.length).take 1).sum +
            ([[(1 : ℚ)], [2, 3]].get ⟨1, by decide⟩).length)) ∧
    process_block (fun _ => 0) 0 1 [] 5 = (fun _ => (0 : ℚ)) 5 :=
  block_ranges_disjoint [[(1 : ℚ)], [2, 3]] 0 1 (by decide) (by decide) (by decide)
    (by rw [prepare_block_data_length]; decide) (by rw [prepare_block_data_length]; decide)
    (fun _ => 0) 0 1 [] 5 1 (by decide)

theorem run_blocks_lt {α : Type} (f : List α → List (ℕ × ℚ)) :
    ∀ (blocks : List (List α)) (acc : ℕ) (buf : ℕ → ℚ) (i : ℕ), i < acc →
      run_blocks f (zipOffsets acc blocks) buf i = buf i := by
  intro blocks
  induction blocks with
  | nil => intro acc buf i _; rfl
  | cons blk rest ih =>
    intro acc buf i hi
    show run_blocks f (zipOffsets (acc + blk.length) rest)
        (process_block buf acc blk.length (f blk)) i = buf i
    rw [ih (acc + blk.length) _ i (by omega),
      process_block_outside _ _ _ _ i (Or.inl hi)]

theorem run_blocks_getElem {α : Type} (f : List α → List (ℕ × ℚ)) :
    ∀ (blocks : List (List α)) (acc : ℕ) (buf : ℕ → ℚ) (b k : ℕ)
      (hb : b < blocks.length), k < (blocks.get ⟨b, hb⟩).length →
      run_blocks f (zipOffsets acc blocks) buf
          (acc + ((blocks.map List.length).take b).sum + k) =
        (blockBeta (blocks.get ⟨b, hb⟩).length (f (blocks.get ⟨b, hb⟩))).getD k 0 := by
  intro blocks
  induction blocks with
  | nil => intro acc buf b k hb; simp at hb
  | cons blk rest ih =>
    intro acc buf b k hb hk
    match b with
    | 0 =>
      show run_blocks f (zipOffsets (acc + blk.length) rest)
          (process_block buf acc blk.length (f blk)) (acc + 0 + k) = _
      rw [run_blocks_lt f rest (acc + blk.length) _ _ (by
        simp only [List.get_eq_getElem, List.getElem_cons_zero] at hk
        omega)]
      have hlen : (blockBeta blk.length (f blk)).length = blk.length := by
        simp [blockBeta]
      rw [process_block, writeSlice, hlen, if_pos (by
        simp only [List.get_eq_getElem, List.getElem_cons_zero] at hk
        omega)]
      have : acc + 0 + k - acc = k := by omega
      rw [this]
      simp only [List.get_eq_getElem, List.getElem_cons_zero]
    | Nat.succ c =>
      have hc : c < rest.length := by simpa using hb
      show run_blocks f (zipOffsets (acc + blk.length) rest)
          (process_block buf acc blk.length (f blk)) _ = _
      have harith : acc + ((((blk :: rest).map List.length).take (c + 1)).sum) + k =
          (acc + blk.length) + (((rest.map List.length).take c).sum) + k := by
        simp only [List.map_cons, List.take_succ_cons, List.sum_cons]
        omega
      rw [harith, ih (acc + blk.length) _ c k hc (by simpa using hk)]
      simp

theorem zipOffsets_map_fst {α : Type} (blocks : List (List α)) :
    ∀ acc : ℕ, (zipOffsets acc blocks).map Prod.fst = blocks := by
  induction blocks with
  | nil => intro acc; rfl
  | cons blk rest ih =>
    intro acc
    show blk :: (zipOffsets (acc + blk.length) rest).map Prod.fst = blk :: rest
    rw [ih]

theorem blockBeta_getD (num k : ℕ) (assign : List (ℕ × ℚ)) (hk : k < num) :
    (blockBeta num assign).getD k 0 = assignAt assign k := by
  simp [blockBeta, List.getD_eq_getElem?_getD, List.getElem?_map, List.getElem?_range, hk]

theorem assignAt_of_unassigned (assign : List (ℕ × ℚ)) (k : ℕ)
    (hnm : ∀ q ∈ assign, q.1 ≠ k) : assignAt assign k = 0 := by
  have : assign.filter (fun p => p.1 == k) = [] := by
    rw [List.filter_eq_nil_iff]
    intro q hq
    simpa using hnm q hq
  rw [assignAt, this]
  rfl

/-- C4: the `beta` array is allocated with the length of the original full
(unfiltered) input, and any input row that merged into no block holds zero
in the result of the serial run. -/
theorem blup_output_length_and_zero_fill {α : Type} (f : List α → List (ℕ × ℚ))
    (blocks : List (List α)) (input : List α) (hpart : blocks.flatten = input)
    (b k : ℕ) (hb : b < blocks.length) (hk : k < (blocks.get ⟨b, hb⟩).length)
    (hnm : ∀ q ∈ f (blocks.get ⟨b, hb⟩), q.1 ≠ k) :
    create_shared_memory_len (prepare_block_data blocks) = input.length ∧
    run_serial_beta f blocks (((blocks.map List.length).take b).sum + k) = 0 := by
  constructor
  · rw [create_shared_memory_len, prepare_block_data_eq_zipOffsets]
    have hmap : ((zipOffsets 0 blocks).map fun p => p.1.length) =
        blocks.map List.length := by
      have : ((zipOffsets 0 blocks).map fun p => p.1.length) =
          ((zipOffsets 0 blocks).map Prod.fst).map List.length := by
        rw [List.map_map]
        rfl
      rw [this, zipOffsets_map_fst]
    rw [hmap, ← List.length_flatten, hpart]
  · rw [run_serial_beta, prepare_block_data_eq_zipOffsets]
    have harith : ((blocks.map List.length).take b).sum + k =
        0 + ((blocks.map List.length).take b).sum + k := by omega
    rw [harith, run_blocks_getElem f blocks 0 _ b k hb hk,
      blockBeta_getD _ k _ hk, assignAt_of_unassigned _ k hnm]

theorem blup_output_length_and_zero_fill_witness :
    create_shared_memory_len (prepare_block_data [[(1 : ℚ)], [2, 3]]) =
      [(1 : ℚ), 2, 3].length ∧
    run_serial_beta (fun _ => []) [[(1 : ℚ)], [2, 3]]
      ((([[(1 : ℚ)], [2, 3]].map List.length).take 1).sum + 0) = 0 :=
  blup_output_length_and_zero_fill (fun _ => []) [[(1 : ℚ)], [2, 3]] [1, 2, 3]
    (by decide) 1 0 (by decide) (by decide) (by simp)

theorem process_block_comm (buf : ℕ → ℚ) (o1 n1 : ℕ) (a1 : List (ℕ × ℚ))
    (o2 n2 : ℕ) (a2 : List (ℕ × ℚ)) (hdisj : o1 + n1 ≤ o2 ∨ o2 + n2 ≤ o1) :
    process_block (process_block buf o1 n1 a1) o2 n2 a2 =
      process_block (process_block buf o2 n2 a2) o1 n1 a1 := by
  funext i
  have h1 : (blockBeta n1 a1).length = n1 := by simp [blockBeta]
  have h2 : (blockBeta n2 a2).length = n2 := by simp [blockBeta]
  simp only [process_block, writeSlice, h1, h2]
  split_ifs <;> first | rfl | (exfalso; omega)

/-- C6: running the per-block callback over the partition in any schedule
order (a permutation of the serial task list, as produced by any number of
workers claiming disjoint blocks) writes the same buffer contents as the
serial path. -/
theorem serial_eq_parallel {α : Type} (f : List α → List (ℕ × ℚ))
    (blocks : List (List α)) (sched : List (List α × ℕ))
    (hperm : sched.Perm (prepare_block_data blocks)) :
    run_blocks f sched (fun _ => 0) =
      run_blocks f (prepare_block_data blocks) (fun _ => 0) := by
  unfold run_blocks
  refine List.Perm.foldl_eq' hperm ?_ _
  intro x hx y hy z
  by_cases hxy : x = y
  · rw [hxy]
  · have hx2 : x ∈ zipOffsets 0 blocks := by
      rw [← prepare_block_data_eq_zipOffsets]
      exact hperm.subset hx
    have hy2 : y ∈ zipOffsets 0 blocks := by
      rw [← prepare_block_data_eq_zipOffsets]
      exact hperm.subset hy
    obtain ⟨⟨bx, hbx⟩, hgx⟩ := List.mem_iff_get.mp hx2
    obtain ⟨⟨b2, hb2⟩, hgy⟩ := List.mem_iff_get.mp hy2
    have hbx2 : bx < blocks.length := by rwa [zipOffsets_length] at hbx
    have hb22 : b2 < blocks.length := by rwa [zipOffsets_length] at hb2
    rw [zipOffsets_getElem blocks 0 bx hbx2 hbx] at hgx
    rw [zipOffsets_getElem blocks 0 b2 hb22 hb2] at hgy
    have hbne : bx ≠ b2 := by
      intro h
      apply hxy
      subst h
      rw [← hgx, ← hgy]
    rw [← hgx, ← hgy]
    simp only
    apply process_block_comm
    rcases Nat.lt_or_ge bx b2 with hlt | hge
    · left
      have := sum_take_len_le blocks bx b2 hbx2 hlt
      omega
    · right
      have hlt : b2 < bx := by omega
      have := sum_take_len_le blocks b2 bx hb22 hlt
      omega

theorem serial_eq_parallel_witness :
    ([([2, 3], 1), ([(1 : ℚ)], 0)] : List (List ℚ × ℕ)).Perm
        (prepare_block_data [[(1 : ℚ)], [2, 3]]) ∧
    run_blocks (fun _ => []) [([2, 3], 1), ([(1 : ℚ)], 0)] (fun _ => 0) =
      run_blocks (fun _ => []) (prepare_block_data [[(1 : ℚ)], [2, 3]]) (fun _ => 0) := by
  have hperm : ([([2, 3], 1), ([(1 : ℚ)], 0)] : List (List ℚ × ℕ)).Perm
      (prepare_block_data [[(1 : ℚ)], [2, 3]]) := by decide
  exact ⟨hperm, serial_eq_parallel (fun _ => []) [[(1 : ℚ)], [2, 3]] _ hperm⟩

/-! ## Worker supervision (modelled from the spec:
`graphld/multiprocessing.py` is not in the source tree) -/

/-- One run of the worker pool over `B` blocks: for each block, whether its
worker set the completion flag.  A worker that terminates abnormally or
raises during its `Computing` phase never sets its flag. -/
structure WorkerRun (B : ℕ) where
  flagSet : Fin B → Bool

/-- Modelled from the spec: `await_workers` waits on the completion flags
only, with no timeout and no liveness check on worker processes — it returns
exactly when every completion flag is set, and otherwise blocks forever. -/
def await_workers_returns {B : ℕ} (r : WorkerRun B) : Bool :=
  decide (∀ b, r.flagSet b = true)

/-- Modelled from the spec: `BLUP.supervise` calls `start_workers` then
`await_workers` and returns the buffer; no code path raises an aggregate
worker failure. -/
def supervise_raises {B : ℕ} (_ : WorkerRun B) : Bool :=
  false

/-- C5 (code bug): on the run where the single block's worker dies before
setting its completion flag, `await_workers` never returns and the
supervisor raises no aggregate failure — the supervisor blocks indefinitely
instead of detecting the failure, the design gap the spec itself flags. -/
theorem supervisor_hangs_on_dead_worker :
    await_workers_returns (⟨fun _ => false⟩ : WorkerRun 1) = false ∧
    supervise_raises (⟨fun _ => false⟩ : WorkerRun 1) = false := by
  decide

/-! ## `load_ldgm` symmetrization (`sparseld/io.py`) -/

/-- The `csr_matrix` built from an edgelist: entry `(i, j)` is the sum of
the values of all edges with those coordinates (duplicates are summed). -/
def edgeMatrix (n : ℕ) (edges : List (ℕ × ℕ × ℚ)) : Matrix (Fin n) (Fin n) ℚ :=
  Matrix.of fun i j =>
    ((edges.filter fun e => e.1 == i.val && e.2.1 == j.val).map fun e => e.2.2).sum

/-- `matrix.setdiag(d)`: replace the diagonal, keep everything else. -/
def setDiag {n : ℕ} (M : Matrix (Fin n) (Fin n) ℚ) (d : Fin n → ℚ) :
    Matrix (Fin n) (Fin n) ℚ :=
  Matrix.of fun i j => if i = j then d i else M i j

/-- The symmetrized matrix of `load_ldgm`: `matrix + matrix.T` with the
diagonal then reset to `diag_vals / 2`, where `diag_vals` is the diagonal
read off before symmetrizing. -/
def load_ldgm_sym (n : ℕ) (edges : List (ℕ × ℕ × ℚ)) : Matrix (Fin n) (Fin n) ℚ :=
  setDiag (edgeMatrix n edges + (edgeMatrix n edges)ᵀ)
    (fun i => edgeMatrix n edges i i / 2)

/-- The final loaded precision matrix: restrict the symmetrized matrix to
the rows and columns whose diagonal entry is nonzero. -/
def load_ldgm_matrix (n : ℕ) (edges : List (ℕ × ℕ × ℚ)) :
    Matrix {i : Fin n // load_ldgm_sym n edges i i ≠ 0}
      {i : Fin n // load_ldgm_sym n edges i i ≠ 0} ℚ :=
  (load_ldgm_sym n edges).submatrix Subtype.val Subtype.val

/-- C8: for every edgelist input, the matrix built by `load_ldgm`
(symmetrize, reset diagonal, restrict to nonzero-diagonal rows) equals its
own transpose, both before and after the restriction. -/
theorem load_ldgm_symmetric (n : ℕ) (edges : List (ℕ × ℕ × ℚ)) :
    (load_ldgm_sym n edges)ᵀ = load_ldgm_sym n edges ∧
    (load_ldgm_matrix n edges)ᵀ = load_ldgm_matrix n edges := by
  have hsym : (load_ldgm_sym n edges)ᵀ = load_ldgm_sym n edges := by
    ext i j
    simp only [Matrix.transpose_apply, load_ldgm_sym, setDiag, Matrix.of_apply,
      Matrix.add_apply]
    by_cases h : i = j
    · subst h
      rfl
    · rw [if_neg (Ne.symm h), if_neg h]
      exact add_comm _ _
  refine ⟨hsym, ?_⟩
  ext i j
  simp only [Matrix.transpose_apply, load_ldgm_matrix, Matrix.submatrix_apply]
  exact congrFun (congrFun hsym i.val) j.val

/-! ## Allele matching and snplist merging (`sparseld/io.py`) -/

/-- Case-normalize an allele string (`np.char.lower`). -/
def lowerStr (s : List Char) : List Char := s.map Char.toLower

/-- `merge_alleles` on one row: phase starts at 0, is set to 1 where the
exact match holds, then overwritten with -1 where the flipped match holds;
all comparisons are on lowercased alleles. -/
def merge_alleles_row (anc der refa alta : List Char) : Int :=
  if lowerStr anc = lowerStr alta ∧ lowerStr der = lowerStr refa then -1
  else if lowerStr anc = lowerStr refa ∧ lowerStr der = lowerStr alta then 1
  else 0

/-- C10: `merge_alleles` returns a phase in {-1, 0, 1}, depends only on the
case-normalized alleles, and on a row where the exact and the flipped match
both hold the flipped assignment overwrites the exact one: the phase is -1. -/
theorem merge_alleles_row_spec (a d r t a2 d2 r2 t2 : List Char)
    (ha : lowerStr a = lowerStr a2) (hd : lowerStr d = lowerStr d2)
    (hr : lowerStr r = lowerStr r2) (ht : lowerStr t = lowerStr t2) :
    (merge_alleles_row a d r t = -1 ∨ merge_alleles_row a d r t = 0 ∨
      merge_alleles_row a d r t = 1) ∧
    merge_alleles_row a d r t = merge_alleles_row a2 d2 r2 t2 ∧
    ((lowerStr a = lowerStr r ∧ lowerStr d = lowerStr t ∧
        lowerStr a = lowerStr t ∧ lowerStr d = lowerStr r) →
      merge_alleles_row a d r t = -1) := by
  refine ⟨?_, ?_, ?_⟩
  · unfold merge_alleles_row
    split_ifs <;> simp
  · unfold merge_alleles_row
    rw [ha, hd, hr, ht]
  · intro h
    obtain ⟨h1, h2, h3, h4⟩ := h
    unfold merge_alleles_row
    rw [if_pos ⟨h3, h4⟩]

theorem merge_alleles_row_spec_witness :
    lowerStr ['A'] = lowerStr ['a'] ∧
    ((merge_alleles_row ['A'] ['A'] ['a'] ['a'] = -1 ∨
        merge_alleles_row ['A'] ['A'] ['a'] ['a'] = 0 ∨
        merge_alleles_row ['A'] ['A'] ['a'] ['a'] = 1) ∧
      merge_alleles_row ['A'] ['A'] ['a'] ['a'] =
        merge_alleles_row ['a'] ['a'] ['A'] ['A'] ∧
      ((lowerStr ['A'] = lowerStr ['a'] ∧ lowerStr ['A'] = lowerStr ['a'] ∧
          lowerStr ['A'] = lowerStr ['a'] ∧ lowerStr ['A'] = lowerStr ['a']) →
        merge_alleles_row ['A'] ['A'] ['a'] ['a'] = -1)) :=
  ⟨by decide,
    merge_alleles_row_spec ['A'] ['A'] ['a'] ['a'] ['a'] ['a'] ['A'] ['A']
      (by decide) (by decide) (by decide) (by decide)⟩

/-- One row of a block's `variant_info` table. -/
structure VariantRow where
  site_ids : List Char
  chr : Int
  position : Int
  anc_alleles : List Char
  deriv_alleles : List Char
  index : Int

/-- One row of the summary-statistics table. -/
structure SumstatRow where
  snp : List Char
  chr : Int
  pos : Int
  ref_allele : List Char
  alt_allele : List Char

/-- The join key of `merge_snplists`: chromosome and position when
`match_by_position`, the variant identifier otherwise. -/
def matchKey (byPos : Bool) (v : VariantRow) (s : SumstatRow) : Bool :=
  if byPos then v.chr == s.chr && v.position == s.pos
  else v.site_ids == s.snp

/-- The phase of a merged row. -/
def phaseOf (v : VariantRow) (s : SumstatRow) : Int :=
  merge_alleles_row v.anc_alleles v.deriv_alleles s.ref_allele s.alt_allele

/-- Tag each operator's variant rows with its block index (the
`with_columns(pl.lit(i))` step) and concatenate, starting at block `k`. -/
def tagBlocksFrom (k : ℕ) : List (List VariantRow) → List (VariantRow × ℕ)
  | [] => []
  | vi :: rest => (vi.map fun v => (v, k)) ++ tagBlocksFrom (k + 1) rest

/-- The inner join of a (tagged) variant table with the summary statistics,
keeping left (variant-table) row order. -/
def joinSumstats (byPos : Bool) (vs : List (VariantRow × ℕ)) (ss : List SumstatRow) :
    List ((VariantRow × ℕ) × SumstatRow) :=
  vs.flatMap fun vt => (ss.filter fun s => matchKey byPos vt.1 s).map fun s => (vt, s)

/-- The merge of a single operator's variant table with the summary
statistics: matched rows in variant-table order. -/
def joinVariants (byPos : Bool) (ss : List SumstatRow) (vi : List VariantRow) :
    List (VariantRow × SumstatRow) :=
  vi.flatMap fun v => (ss.filter fun s => matchKey byPos v s).map fun s => (v, s)

/-- A single operator's merged rows, with the nonzero-phase filter applied
when allele columns are present. -/
def joinBlock (byPos checkAlleles : Bool) (ss : List SumstatRow)
    (vi : List VariantRow) : List (VariantRow × SumstatRow) :=
  if checkAlleles then
    (joinVariants byPos ss vi).filter fun r => phaseOf r.1 r.2 != 0
  else joinVariants byPos ss vi

/-- `merge_snplists` (`sparseld/io.py`): tag and concatenate the variant
tables, inner-join with the summary statistics, keep nonzero-phase rows when
allele columns are present, split back into blocks by the block index; the
first component models the returned list of merged DataFrames and the
second the `_which_indices` written into each operator (the `index` column
of its merged rows). -/
def merge_snplists (ops : List (List VariantRow)) (ss : List SumstatRow)
    (byPos checkAlleles : Bool) :
    List (List (VariantRow × SumstatRow)) × List (List Int) :=
  let joined := joinSumstats byPos (tagBlocksFrom 0 ops) ss
  let merged := if checkAlleles then
      joined.filter fun r => phaseOf r.1.1 r.2 != 0
    else joined
  let blocksOut := (List.range ops.length).map fun i =>
    (merged.filter fun r => r.1.2 == i).map fun r => (r.1.1, r.2)
  (blocksOut, blocksOut.map fun bv => bv.map fun r => r.1.index)

theorem joinSumstats_map_tag (byPos : Bool) (ss : List SumstatRow)
    (vi : List VariantRow) (k : ℕ) :
    joinSumstats byPos (vi.map fun v => (v, k)) ss =
      (joinVariants byPos ss vi).map fun p => ((p.1, k), p.2) := by
  induction vi with
  | nil => rfl
  | cons v rest ih =>
    simp only [joinSumstats, joinVariants, List.map_cons, List.flatMap_cons,
      List.map_append, List.map_map] at ih ⊢
    rw [ih]
    rfl

theorem tagBlocksFrom_tag_ge (ops : List (List VariantRow)) :
    ∀ (k : ℕ) (p : VariantRow × ℕ), p ∈ tagBlocksFrom k ops → k ≤ p.2 := by
  induction ops with
  | nil => intro k p hp; simp [tagBlocksFrom] at hp
  | cons vi rest ih =>
    intro k p hp
    rw [tagBlocksFrom, List.mem_append] at hp
    rcases hp with hp | hp
    · obtain ⟨v, _, rfl⟩ := List.mem_map.mp hp
      exact Nat.le_refl k
    · have := ih (k + 1) p hp
      omega

theorem joinSumstats_mem_left (byPos : Bool) (vs : List (VariantRow × ℕ))
    (ss : List SumstatRow) (r : (VariantRow × ℕ) × SumstatRow)
    (hr : r ∈ joinSumstats byPos vs ss) : r.1 ∈ vs := by
  rw [joinSumstats, List.mem_flatMap] at hr
  obtain ⟨vt, hvt, hr2⟩ := hr
  obtain ⟨s, _, rfl⟩ := List.mem_map.mp hr2
  exact hvt

theorem joinSumstats_filter_block (byPos : Bool) (ss : List SumstatRow)
    (p : (VariantRow × ℕ) × SumstatRow → Bool) (q : VariantRow × SumstatRow → Bool)
    (hpq : ∀ (v : VariantRow) (t : ℕ) (s : SumstatRow), p ((v, t), s) = q (v, s)) :
    ∀ (ops : List (List VariantRow)) (k i : ℕ) (hi : i < ops.length),
      ((((joinSumstats byPos (tagBlocksFrom k ops) ss).filter p).filter
          fun r => r.1.2 == k + i).map fun r => (r.1.1, r.2)) =
        (joinVariants byPos ss (ops.get ⟨i, hi⟩)).filter q := by
  intro ops
  induction ops with
  | nil => intro k i hi; simp at hi
  | cons vi rest ih =>
    intro k i hi
    have happ : joinSumstats byPos (tagBlocksFrom k (vi :: rest)) ss =
        joinSumstats byPos (vi.map fun v => (v, k)) ss ++
          joinSumstats byPos (tagBlocksFrom (k + 1) rest) ss := by
      rw [tagBlocksFrom]
      simp [joinSumstats, List.flatMap_append]
    rw [happ, List.filter_append, List.filter_append, List.map_append,
      joinSumstats_map_tag byPos ss vi k, List.filter_map, List.filter_map,
      List.map_map]
    have hcompq : (p ∘ fun x : VariantRow × SumstatRow => ((x.1, k), x.2)) = q := by
      funext r
      exact hpq r.1 k r.2
    rw [hcompq]
    match i with
    | 0 =>
      have htrue : ((fun r : (VariantRow × ℕ) × SumstatRow => r.1.2 == k + 0) ∘
          fun x : VariantRow × SumstatRow => ((x.1, k), x.2)) = fun _ => true := by
        funext r
        simp
      rw [htrue, List.filter_true]
      have hid : ((fun r : (VariantRow × ℕ) × SumstatRow => (r.1.1, r.2)) ∘
          fun x : VariantRow × SumstatRow => ((x.1, k), x.2)) = id := by
        funext r
        rfl
      rw [hid, List.map_id]
      have htail : ((joinSumstats byPos (tagBlocksFrom (k + 1) rest) ss).filter p).filter
          (fun r => r.1.2 == k + 0) = [] := by
        rw [List.filter_eq_nil_iff]
        intro r hr
        have hmem : r ∈ joinSumstats byPos (tagBlocksFrom (k + 1) rest) ss :=
          List.mem_of_mem_filter hr
        have hge := tagBlocksFrom_tag_ge rest (k + 1) r.1
          (joinSumstats_mem_left byPos _ ss r hmem)
        simp only [beq_iff_eq]
        omega
      rw [htail]
      simp
    | Nat.succ i2 =>
      have hfalse : ((fun r : (VariantRow × ℕ) × SumstatRow => r.1.2 == k + (i2 + 1)) ∘
          fun x : VariantRow × SumstatRow => ((x.1, k), x.2)) = fun _ => false := by
        funext r
        simp only [Function.comp]
        have : ¬ (k = k + (i2 + 1)) := by omega
        simpa using this
      rw [hfalse, List.filter_false, List.map_nil, List.nil_append]
      have hi2 : i2 < rest.length := by simpa using hi
      have harith : k + (i2 + 1) = (k + 1) + i2 := by omega
      rw [harith, ih (k + 1) i2 hi2]
      rfl

/-- C9: `merge_snplists` sets each operator's `_which_indices` to the `index`
column of exactly the summary-statistic rows that merged into that operator's
block (with nonzero phase when allele columns are present), in merge order,
and the returned list of merged tables is aligned one-to-one with the input
operator list. -/
theorem merge_snplists_spec (ops : List (List VariantRow)) (ss : List SumstatRow)
    (byPos checkAlleles : Bool) :
    (merge_snplists ops ss byPos checkAlleles).1 =
      ops.map (joinBlock byPos checkAlleles ss) ∧
    (merge_snplists ops ss byPos checkAlleles).2 =
      ops.map (fun vi => (joinBlock byPos checkAlleles ss vi).map fun r => r.1.index) ∧
    (merge_snplists ops ss byPos checkAlleles).1.length = ops.length ∧
    (merge_snplists ops ss byPos checkAlleles).2.length = ops.length := by
  have h1 : (merge_snplists ops ss byPos checkAlleles).1 =
      ops.map (joinBlock byPos checkAlleles ss) := by
    apply List.ext_get
    · simp [merge_snplists]
    · intro i h1i h2i
      have hi : i < ops.length := by
        simpa [merge_snplists] using h1i
      simp only [merge_snplists, List.get_eq_getElem, List.getElem_map,
        List.getElem_range]
      cases checkAlleles with
      | false =>
        have key := joinSumstats_filter_block byPos ss
          (fun _ => true) (fun _ => true) (fun _ _ _ => rfl) ops 0 i hi
        simp only [Nat.zero_add, List.filter_true] at key
        simpa [joinBlock] using key
      | true =>
        have key := joinSumstats_filter_block byPos ss
          (fun r => phaseOf r.1.1 r.2 != 0) (fun r => phaseOf r.1 r.2 != 0)
          (fun _ _ _ => rfl) ops 0 i hi
        simp only [Nat.zero_add] at key
        simpa [joinBlock] using key
  have h2 : (merge_snplists ops ss byPos checkAlleles).2 =
      (merge_snplists ops ss byPos checkAlleles).1.map
        (fun bv => bv.map fun r => r.1.index) := rfl
  refine ⟨h1, ?_, ?_, ?_⟩
  · rw [h2, h1, List.map_map]
    rfl
  · rw [h1, List.length_map]
  · rw [h2, List.length_map, h1, List.length_map]
